import Mathlib

/-!
Shallow embedding of the qdb query-planning / caching layer.

Source files:
* `engine.ts` — `Engine` (encode/decode, put, delete, getRecordsByKeys,
  getKeysByIndexes), `scanKeys`, `buildCompositePKRange`, `normalizeKey`.
* `lru.ts`    — `LRUCache`.
* `query.ts`  — `QueryBuilder`, `Query`, `UpdateQuery`, `RemoveQuery`.
* `qdb.ts`    — the public facade with change notification.

JavaScript values that can flow through the engine (record field values and
IndexedDB keys) are modelled by the inductive `JSVal`.  Numbers are modelled
as integers (every value exercised by the claims is integral), binary data as
byte lists: `u8` plays the role of `Uint8Array` and `buf` the role of a
Node-style `Buffer` (an object whose `constructor.name` is `"Buffer"` or that
duck-types `buffer`/`byteLength`), which `normalizeUint8Arrays` canonicalises
to `Uint8Array`.
-/

namespace QDB

inductive JSVal : Type where
  | undef : JSVal
  | null : JSVal
  | bool (b : Bool) : JSVal
  | num (n : Int) : JSVal
  | str (s : String) : JSVal
  | arr (xs : List JSVal) : JSVal
  | obj (fs : List (String × JSVal)) : JSVal
  | u8 (bs : List Nat) : JSVal
  | buf (bs : List Nat) : JSVal
deriving Repr

mutual

/-- Structural equality test on `JSVal` (deriving is unavailable for this
nested inductive, so decidable equality is built by hand). -/
def beqVal : JSVal → JSVal → Bool
  | .undef, .undef => true
  | .null, .null => true
  | .bool a, .bool b => a == b
  | .num a, .num b => a == b
  | .str a, .str b => a == b
  | .arr xs, .arr ys => beqValList xs ys
  | .obj fs, .obj gs => beqValFields fs gs
  | .u8 a, .u8 b => a == b
  | .buf a, .buf b => a == b
  | _, _ => false

def beqValList : List JSVal → List JSVal → Bool
  | [], [] => true
  | x :: xs, y :: ys => beqVal x y && beqValList xs ys
  | _, _ => false

def beqValFields : List (String × JSVal) → List (String × JSVal) → Bool
  | [], [] => true
  | (f, x) :: xs, (g, y) :: ys => f == g && beqVal x y && beqValFields xs ys
  | _, _ => false

end

mutual

theorem beqVal_iff : ∀ a b, beqVal a b = true ↔ a = b
  | .undef, b => by cases b <;> simp [beqVal]
  | .null, b => by cases b <;> simp [beqVal]
  | .bool a, b => by cases b <;> simp [beqVal]
  | .num a, b => by cases b <;> simp [beqVal]
  | .str a, b => by cases b <;> simp [beqVal]
  | .arr xs, b => by
      cases b <;> simp [beqVal]
      exact beqValList_iff xs _
  | .obj fs, b => by
      cases b <;> simp [beqVal]
      exact beqValFields_iff fs _
  | .u8 a, b => by cases b <;> simp [beqVal]
  | .buf a, b => by cases b <;> simp [beqVal]

theorem beqValList_iff : ∀ xs ys, beqValList xs ys = true ↔ xs = ys
  | [], ys => by cases ys <;> simp [beqValList]
  | x :: xs, ys => by
      cases ys with
      | nil => simp [beqValList]
      | cons y ys =>
        simp [beqValList, Bool.and_eq_true, beqVal_iff x y, beqValList_iff xs ys]

theorem beqValFields_iff : ∀ xs ys, beqValFields xs ys = true ↔ xs = ys
  | [], ys => by cases ys <;> simp [beqValFields]
  | (f, x) :: xs, ys => by
      cases ys with
      | nil => simp [beqValFields]
      | cons p ys =>
        obtain ⟨g, y⟩ := p
        simp [beqValFields, Bool.and_eq_true, beqVal_iff x y, beqValFields_iff xs ys,
          Prod.ext_iff]

end

instance : DecidableEq JSVal := fun a b => decidable_of_iff _ (beqVal_iff a b)

/-- JavaScript truthiness (`if (x)`), as used by `if (lruKey)` in `lru.ts`
and by `.filter(Boolean)` in `engine.ts`.  Objects, arrays and binary
values are always truthy. -/
def jsTruthy : JSVal → Bool
  | .undef => false
  | .null => false
  | .bool b => b
  | .num n => n != 0
  | .str s => s ≠ ""
  | _ => true

mutual

/-- JavaScript `String(x)` on the values of the model.  Arrays stringify as
their elements joined by `","` with `null`/`undefined` becoming the empty
string; plain objects stringify as `"[object Object]"`; typed arrays join
their elements with `","`. -/
def jsToString : JSVal → String
  | .undef => "undefined"
  | .null => "null"
  | .bool b => if b then "true" else "false"
  | .num n => toString n
  | .str s => s
  | .arr xs => jsJoin xs ","
  | .obj _ => "[object Object]"
  | .u8 bs => String.intercalate "," (bs.map toString)
  | .buf bs => String.intercalate "," (bs.map toString)

/-- `Array.prototype.join(sep)`: elements converted by `String(·)` except
`null`/`undefined` which convert to `""`. -/
def jsJoin : List JSVal → String → String
  | [], _ => ""
  | [x], _ => jsElemString x
  | x :: y :: xs, sep => jsElemString x ++ sep ++ jsJoin (y :: xs) sep

/-- Element conversion used by `Array.prototype.join`: `String(·)` with
`null`/`undefined` becoming `""` (the conversion is unfolded here so that
the mutual recursion stays structural). -/
def jsElemString : JSVal → String
  | .undef => ""
  | .null => ""
  | .bool b => if b then "true" else "false"
  | .num n => toString n
  | .str s => s
  | .arr xs => jsJoin xs ","
  | .obj _ => "[object Object]"
  | .u8 bs => String.intercalate "," (bs.map toString)
  | .buf bs => String.intercalate "," (bs.map toString)

end

/-- `engine.ts` `normalizeKey`: composite (array) keys serialise as their
components joined by the NUL byte, every other key as `String(key)`. -/
def normalizeKey : JSVal → String
  | .arr xs => jsJoin xs "\x00"
  | k => jsToString k

/-- IndexedDB key type rank: `number < date < string < binary < array`
(dates do not occur in this schema).  Non-key values get a rank above all
valid keys; they never occur in the scans modelled here. -/
def keyRank : JSVal → Nat
  | .num _ => 0
  | .str _ => 2
  | .u8 _ => 3
  | .buf _ => 3
  | .arr _ => 4
  | _ => 5

/-- Lexicographic comparison of char lists (JS string comparison by code
unit; all characters used here are in the BMP, where codepoint order and
UTF-16 code-unit order agree). -/
def charListCmp : List Char → List Char → Ordering
  | [], [] => .eq
  | [], _ :: _ => .lt
  | _ :: _, [] => .gt
  | a :: as, b :: bs =>
    match compare a.val b.val with
    | .eq => charListCmp as bs
    | o => o

def natListCmp : List Nat → List Nat → Ordering
  | [], [] => .eq
  | [], _ :: _ => .lt
  | _ :: _, [] => .gt
  | a :: as, b :: bs =>
    match compare a b with
    | .eq => natListCmp as bs
    | o => o

mutual

/-- IndexedDB key comparison (`indexedDB.cmp`): compare type ranks first,
then within a type: numbers numerically, strings lexicographically, binary
bytewise, arrays lexicographically element by element with the shorter
array first on a tie. -/
def keyCmp (a b : JSVal) : Ordering :=
  match a, b with
  | .num x, .num y => compare x y
  | .str x, .str y => charListCmp x.data y.data
  | .u8 x, .u8 y => natListCmp x y
  | .u8 x, .buf y => natListCmp x y
  | .buf x, .u8 y => natListCmp x y
  | .buf x, .buf y => natListCmp x y
  | .arr xs, .arr ys => keyCmpList xs ys
  | x, y => compare (keyRank x) (keyRank y)

def keyCmpList : List JSVal → List JSVal → Ordering
  | [], [] => .eq
  | [], _ :: _ => .lt
  | _ :: _, [] => .gt
  | x :: xs, y :: ys =>
    match keyCmp x y with
    | .eq => keyCmpList xs ys
    | o => o

end

/-- `IDBKeyRange`: the four shapes used by the engine. -/
inductive KeyRange : Type where
  | only (k : JSVal) : KeyRange
  | lowerB (k : JSVal) (exclusive : Bool) : KeyRange
  | upperB (k : JSVal) (exclusive : Bool) : KeyRange
  | bound (lo hi : JSVal) (loExcl hiExcl : Bool) : KeyRange
deriving DecidableEq, Repr

/-- Membership of a key in an `IDBKeyRange`, under IndexedDB key order. -/
def rangeContains (r : KeyRange) (k : JSVal) : Bool :=
  match r with
  | .only v => keyCmp k v = .eq
  | .lowerB v ex =>
    (keyCmp k v = .gt) || (!ex && keyCmp k v = .eq)
  | .upperB v ex =>
    (keyCmp k v = .lt) || (!ex && keyCmp k v = .eq)
  | .bound lo hi loEx hiEx =>
    ((keyCmp k lo = .gt) || (!loEx && keyCmp k lo = .eq)) &&
    ((keyCmp k hi = .lt) || (!hiEx && keyCmp k hi = .eq))

/-- `a` sorts at or before `b` in IndexedDB key order. -/
def keyLe (a b : JSVal) : Bool := keyCmp a b ≠ .gt

def insertByLe {α : Type} (le : α → α → Bool) (x : α) : List α → List α
  | [] => [x]
  | y :: ys => if le x y then x :: y :: ys else y :: insertByLe le x ys

/-- Insertion sort; a cursor over a store or index visits entries in this
(ascending) order, and in the reverse order for direction `"prev"`. -/
def sortByLe {α : Type} (le : α → α → Bool) : List α → List α
  | [] => []
  | x :: xs => insertByLe le x (sortByLe le xs)

/-- Predicate operators of `WhereClause` (`types.ts`). -/
inductive Opc : Type where
  | eq : Opc
  | gt : Opc
  | ge : Opc
  | lt : Opc
  | le : Opc
deriving DecidableEq, Repr

structure WhereClause where
  field : String
  op : Opc
  value : JSVal
deriving DecidableEq, Repr

/-- The errors the engine throws, one constructor per message template:
`rangeAfterCondition f` is `Composite PK range query on "f" cannot have
conditions on later components`; `nonContiguous f p` is `Composite PK WHERE
clauses must be contiguous. Cannot query "f" without "p"`;
`orderFieldNotIndexed f` is `ORDER BY field "f" is not indexed`;
`orderNotFirstPKField f` is `ORDER BY "f" must be first field of composite
PK`; `fieldNotIndexed f` is `Field f not indexed`. -/
inductive QErr : Type where
  | rangeAfterCondition (field : String) : QErr
  | nonContiguous (field prev : String) : QErr
  | orderFieldNotIndexed (field : String) : QErr
  | orderNotFirstPKField (field : String) : QErr
  | fieldNotIndexed (field : String) : QErr
deriving DecidableEq, Repr

/-- `new Map(wheres.map(w => [w.field, w]))`: for duplicate fields the later
clause wins, so lookup finds the last clause with the given field. -/
def fieldToWhere (wheres : List WhereClause) (f : String) : Option WhereClause :=
  wheres.reverse.find? (fun w => w.field = f)

/-- The walk over `pkPath` in `buildCompositePKRange`: consume `==` clauses
into the equality accumulator; at the first non-`==` clause check only the
immediately following component for a clause (throwing if it has one),
record the range operator and stop; stop silently at the first component
with no clause.  Empty component names are skipped (`if (!field) continue`). -/
def pkWalk (wheres : List WhereClause) : List String → List JSVal →
    Except QErr (List JSVal × Option (Opc × JSVal))
  | [], pfx => .ok (pfx, none)
  | f :: rest, pfx =>
    if f = "" then pkWalk wheres rest pfx
    else
      match fieldToWhere wheres f with
      | none => .ok (pfx, none)
      | some w =>
        if w.op = .eq then pkWalk wheres rest (pfx ++ [w.value])
        else
          match rest.head? with
          | some f2 =>
            if (fieldToWhere wheres f2).isSome then .error (.rangeAfterCondition f)
            else .ok (pfx, some (w.op, w.value))
          | none => .ok (pfx, some (w.op, w.value))

/-- The second loop of `buildCompositePKRange` (composite keys only): a
clause on a component at an index not covered by the equality accumulator,
when no range operator was recorded, is a contiguity violation.  `prev`
carries the previous component name for the error message (`undefined`
before the first component, as JavaScript interpolates `pkPath[-1]`). -/
def contiguityCheck (wheres : List WhereClause) (pfxLen : Nat) (hasRange : Bool) :
    Nat → Option String → List String → Except QErr Unit
  | _, _, [] => .ok ()
  | i, prev, f :: rest =>
    if f ≠ "" ∧ (fieldToWhere wheres f).isSome ∧ pfxLen ≤ i ∧ hasRange = false then
      .error (.nonContiguous f (prev.getD "undefined"))
    else contiguityCheck wheres pfxLen hasRange (i + 1) (some f) rest

/-- `engine.ts` `buildCompositePKRange(pkPath, wheres, isCompositePK)`:
derive a single scan range from the primary-key clauses, or fail.  The
sentinel closing prefix scans is the empty array `[]`, which sorts after
every non-array key. -/
def buildCompositePKRange (pkPath : List String) (wheres : List WhereClause)
    (isCompositePK : Bool) : Except QErr (Option KeyRange) := do
  if wheres = [] then return none
  let (pfx, rangeOp) ← pkWalk wheres pkPath []
  if isCompositePK then
    contiguityCheck wheres pfx.length rangeOp.isSome 0 none pkPath
  if pfx = [] ∧ rangeOp = none then return none
  match rangeOp with
  | some (op, value) =>
    if isCompositePK then
      match op with
      | .gt => return some (.bound (.arr (pfx ++ [value, .arr []]))
                                   (.arr (pfx ++ [.arr []])) false false)
      | .ge => return some (.bound (.arr (pfx ++ [value]))
                                   (.arr (pfx ++ [.arr []])) false false)
      | .lt => return some (.bound (.arr pfx) (.arr (pfx ++ [value])) false true)
      | .le => return some (.bound (.arr pfx)
                                   (.arr (pfx ++ [value, .arr []])) false false)
      | .eq => return none
    else
      match op with
      | .gt => return some (.lowerB value true)
      | .ge => return some (.lowerB value false)
      | .lt => return some (.upperB value true)
      | .le => return some (.upperB value false)
      | .eq => return none
  | none =>
    if isCompositePK then
      if pfx.length = pkPath.length then return some (.only (.arr pfx))
      else return some (.bound (.arr pfx) (.arr (pfx ++ [.arr []])) false false)
    else
      match pfx with
      | p :: _ => return some (.only p)
      | [] => return none

/-!  The `.eq` branches under `rangeOp` and the final `[]` branch are
unreachable: the walk records only non-`==` operators, and the pure-equality
path is guarded by the emptiness test.  They are given the value `none` to
keep the function total.  -/

/-!  `lru.ts` `LRUCache`, as its entry list: front = least recently used,
back = most recently used (JavaScript `Map` preserves insertion order and
`delete` + `set` moves a key to the back).  -/

namespace LRUCache

/-- `get`: present keys move to the most-recently-used position; returns
the updated entry list and the value. -/
def get {K V : Type} [DecidableEq K] (entries : List (K × V)) (k : K) :
    List (K × V) × Option V :=
  match entries.find? (fun p => p.1 = k) with
  | none => (entries, none)
  | some (_, v) => (entries.eraseP (fun p => decide (p.1 = k)) ++ [(k, v)], some v)

/-- `set`: insert or replace at the most-recently-used position, then, if
the size exceeds the capacity, delete the least-recently-used key — but only
if that key is truthy (`if (lruKey)` in the source). -/
def set {K V : Type} [DecidableEq K] (truthy : K → Bool) (capacity : Nat)
    (entries : List (K × V)) (k : K) (v : V) : List (K × V) :=
  let e1 := if (entries.find? (fun p => p.1 = k)).isSome
            then entries.eraseP (fun p => decide (p.1 = k)) else entries
  let e2 := e1 ++ [(k, v)]
  if e2.length > capacity then
    match e2 with
    | [] => e2
    | (k0, _) :: rest => if truthy k0 then rest else e2
  else e2

end LRUCache

/-!  Records.  A JavaScript object is modelled as an association list of
field name to value with unique field names (JavaScript object properties
are unique); theorems carry a `Nodup` hypothesis where that matters.  -/

abbrev Rec := List (String × JSVal)

/-- Property read `r[f]`. -/
def getF (r : Rec) (f : String) : Option JSVal :=
  (r.find? (fun p => p.1 = f)).map (·.2)

/-- Property write `r[f] = v`: replace in place when the property exists,
append otherwise (JavaScript objects keep the original property position on
re-assignment). -/
def setF (r : Rec) (f : String) (v : JSVal) : Rec :=
  if (r.find? (fun p => p.1 = f)).isSome then
    r.map (fun p => if p.1 = f then (f, v) else p)
  else r ++ [(f, v)]

/-- Object built from a sequence of property assignments, `{}` then
`setF` for each pair: models object literals and `Object.assign({}, ...)`. -/
def objLit (ps : List (String × JSVal)) : Rec :=
  ps.foldl (fun r p => setF r p.1 p.2) []

/-- The own enumerable properties contributed by `{...v}` for each shape of
value: objects spread their properties, arrays / strings / typed arrays
spread index properties, primitives spread nothing. -/
def spreadFields : JSVal → List (String × JSVal)
  | .obj fs => fs
  | .arr xs => xs.enum.map (fun p => (toString p.1, p.2))
  | .str s => s.data.enum.map (fun p => (toString p.1, JSVal.str (String.mk [p.2])))
  | .u8 bs => bs.enum.map (fun p => (toString p.1, JSVal.num p.2))
  | .buf bs => bs.enum.map (fun p => (toString p.1, JSVal.num p.2))
  | _ => []

mutual

/-- `engine.ts` `normalizeUint8Arrays`: `null`/`undefined` and `Uint8Array`
values pass through; Buffer-like values become `Uint8Array`; plain objects
and arrays are normalised recursively; all other values pass through. -/
def normalizeUint8Arrays : JSVal → JSVal
  | .undef => .undef
  | .null => .null
  | .u8 bs => .u8 bs
  | .buf bs => .u8 bs
  | .obj fs => .obj (normalizeUint8ArraysFields fs)
  | .arr xs => .arr (normalizeUint8ArraysList xs)
  | v => v

def normalizeUint8ArraysList : List JSVal → List JSVal
  | [] => []
  | x :: xs => normalizeUint8Arrays x :: normalizeUint8ArraysList xs

def normalizeUint8ArraysFields : List (String × JSVal) → List (String × JSVal)
  | [] => []
  | (f, v) :: fs => (f, normalizeUint8Arrays v) :: normalizeUint8ArraysFields fs

end

/-- The caller-supplied codec: `encode` receives the plain object of
non-indexed fields, `decode` receives the stored wire value. -/
structure Codec : Type where
  enc : Rec → JSVal
  dec : JSVal → JSVal

/-- One store's schema entry (`types.ts` `Schema`), with `pk` and `index`
already in array form (the engine wraps scalar entries into arrays). -/
structure StoreCfg : Type where
  pk : List String
  index : List String
  encoding : Bool
deriving DecidableEq, Repr

/-- `[...config.pk, ...config.index]` of `engine.ts` (no deduplication). -/
def indexedFieldsOf (cfg : StoreCfg) : List String := cfg.pk ++ cfg.index

namespace Engine

/-- `Engine.encode`: with encoding disabled the record passes through;
otherwise indexed fields are kept verbatim and the remaining fields are
collected into a plain object handed to the caller codec, stored under the
`data` property. -/
def encode (cfg : StoreCfg) (c : Codec) (data : Rec) : Rec :=
  if cfg.encoding = false then data
  else
    let fieldsI := indexedFieldsOf cfg
    let indexed := data.filter (fun p => decide (p.1 ∈ fieldsI))
    let dataObj := data.filter (fun p => decide (p.1 ∉ fieldsI))
    setF indexed "data" (c.enc dataObj)

/-- `Engine.decode`: with encoding disabled the stored record passes
through; otherwise the indexed fields are read off the stored record (an
absent field reads as `undefined`), the `data` property is decoded by the
caller codec and normalised, and the result is `{...indexed, ...normalized}`
— note the decoded payload spreads second and therefore wins a name
collision. -/
def decode (cfg : StoreCfg) (c : Codec) (data : Rec) : Rec :=
  if cfg.encoding = false then data
  else
    let fieldsI := indexedFieldsOf cfg
    let indexed := objLit (fieldsI.map (fun f => (f, (getF data f).getD .undef)))
    let decoded := c.dec ((getF data "data").getD .undef)
    let normalized := normalizeUint8Arrays decoded
    objLit (indexed ++ spreadFields normalized)

end Engine

/-- A cache key as allocated by `[storeName, k]` in `engine.ts`
`getRecordsByKeys`: a fresh array object per evaluation.  `id` is the
allocation identity; two distinct allocations are never equal even with the
same content, which models the reference equality JavaScript's `Map` uses
for array keys. -/
structure RefKey : Type where
  id : Nat
  store : String
  key : JSVal
deriving DecidableEq, Repr

/-- The state of one `Engine` restricted to a single store: the substrate
(the IndexedDB object store, keyed by primary key), the LRU cache entry
list, and the allocation counter for cache-key arrays. -/
structure EngineState : Type where
  cfg : StoreCfg
  storeName : String
  codec : Codec
  cacheLimit : Nat
  substrate : List (JSVal × Rec)
  cache : List (RefKey × Rec)
  ctr : Nat

/-- `store.put(storageData)`: overwrite the record with the same primary
key, or add one. -/
def upsert (m : List (JSVal × Rec)) (k : JSVal) (v : Rec) : List (JSVal × Rec) :=
  if (m.find? (fun p => p.1 = k)).isSome then
    m.map (fun p => if p.1 = k then (k, v) else p)
  else m ++ [(k, v)]

/-- The primary key IndexedDB extracts from a stored record via the store's
`keyPath` (a bare field for a single-field key, an array otherwise). -/
def extractKey (pk : List String) (stored : Rec) : JSVal :=
  match pk with
  | [f] => (getF stored f).getD .undef
  | fs => .arr (fs.map (fun f => (getF stored f).getD .undef))

namespace Engine

/-- `Engine.put`: encode, then write to the substrate.  The cache is not
touched. -/
def put (st : EngineState) (userData : Rec) : EngineState :=
  let storageData := encode st.cfg st.codec userData
  { st with substrate := upsert st.substrate (extractKey st.cfg.pk storageData) storageData }

/-- `Engine.delete`: remove the record with the given key from the
substrate.  The cache is not touched. -/
def delete (st : EngineState) (k : JSVal) : EngineState :=
  { st with substrate := st.substrate.filter (fun p => !(p.1 = k : Bool)) }

/-- `Engine.getRecordsByKeys`: probe the cache with a fresh `[storeName, k]`
array per key, read the misses from the substrate (a key absent from the
substrate is silently dropped), decode and cache each fetched record, and
return the records in the original key order. -/
def getRecordsByKeys (st : EngineState) (keys : List JSVal) :
    EngineState × List Rec :=
  let probe := keys.foldl
    (fun (acc : EngineState × List (JSVal × Rec) × List JSVal) k =>
      let s := acc.1
      let hits := acc.2.1
      let misses := acc.2.2
      let ref : RefKey := ⟨s.ctr, s.storeName, k⟩
      let s := { s with ctr := s.ctr + 1 }
      match LRUCache.get s.cache ref with
      | (c, some v) => ({ s with cache := c }, hits ++ [(k, v)], misses)
      | (c, none) => ({ s with cache := c }, hits, misses ++ [k]))
    (st, ([], []))
  let s1 := probe.1
  let hits := probe.2.1
  let misses := probe.2.2
  let fetchPhase := misses.foldl
    (fun (acc : EngineState × List (JSVal × Rec)) k =>
      let s := acc.1
      let got := acc.2
      match s.substrate.find? (fun p => p.1 = k) with
      | some pr =>
        let res := decode s.cfg s.codec pr.2
        let ref : RefKey := ⟨s.ctr, s.storeName, k⟩
        ({ s with ctr := s.ctr + 1,
                  cache := LRUCache.set (fun _ => true) s.cacheLimit s.cache ref res },
         got ++ [(k, res)])
      | none => (s, got))
    (s1, [])
  let s2 := fetchPhase.1
  let results := hits ++ fetchPhase.2
  (s2, keys.filterMap (fun k => (results.find? (fun p => p.1 = k)).map (·.2)))

end Engine

/-- The two possible ordering sources of `getKeysByIndexes`: the object
store itself, or one of its secondary indexes. -/
inductive OrderSource : Type where
  | store : OrderSource
  | idx (field : String) : OrderSource
deriving DecidableEq, Repr

/-- The primary keys of the store in ascending key order: the sequence an
ascending key cursor over the store visits. -/
def sortedPKs (st : EngineState) : List JSVal :=
  sortByLe keyLe (st.substrate.map (·.1))

/-- Index entries `(indexed value, primary key)` in ascending
(value, primary key) order: the sequence an ascending key cursor over the
index named `f` visits. -/
def idxEntries (st : EngineState) (f : String) : List (JSVal × JSVal) :=
  sortByLe
    (fun a b =>
      match keyCmp a.1 b.1 with
      | .lt => true
      | .gt => false
      | .eq => keyLe a.2 b.2)
    (st.substrate.map (fun p => ((getF p.2 f).getD .undef, p.1)))

/-- `engine.ts` `scanKeys(store, range)`: primary keys within the range, in
cursor order. -/
def scanStoreKeys (st : EngineState) (r : KeyRange) : List JSVal :=
  (sortedPKs st).filter (rangeContains r)

/-- `engine.ts` `scanKeys(store.index(f), range)`: primary keys of entries
whose indexed value lies in the range, in cursor order. -/
def scanIndexKeys (st : EngineState) (f : String) (r : KeyRange) : List JSVal :=
  ((idxEntries st f).filter (fun e => rangeContains r e.1)).map (·.2)

/-- The ordering-cursor walk of `getKeysByIndexes`: visit candidate keys in
cursor order; a key missing from any normalized filter set is skipped; the
first `offset` passing keys are dropped; after pushing a key the walk stops
as soon as `results.length >= limit`. -/
def cursorWalk (sets : List (List String)) (offset : Nat) (limit : Option Nat) :
    List JSVal → Nat → Nat → List JSVal
  | [], _, _ => []
  | pk :: rest, skipped, count =>
    if sets.all (fun s => s.contains (normalizeKey pk)) then
      if skipped < offset then cursorWalk sets offset limit rest (skipped + 1) count
      else
        match limit with
        | some l =>
          if l ≤ count + 1 then [pk]
          else pk :: cursorWalk sets offset limit rest skipped (count + 1)
        | none => pk :: cursorWalk sets offset limit rest skipped (count + 1)
    else cursorWalk sets offset limit rest skipped count

namespace Engine

/-- `Engine.getKeysByIndexes` (`engine.ts`): choose and validate the
ordering source; split the clauses into primary-key clauses and index
clauses; materialise one key set from the composite-primary-key range (when
one results) and one per index clause whose field differs from the ordering
field (an index clause on the ordering field is skipped); then walk the
ordering cursor — opened over the whole source, range `null` — intersecting
against the normalized sets and applying offset and limit. -/
def getKeysByIndexes (st : EngineState) (wheres : List WhereClause)
    (orderField : Option String) (orderDesc : Bool) (limit : Option Nat)
    (offset : Nat) : Except QErr (List JSVal) := do
  let pkPath := st.cfg.pk
  let isPKField : String → Bool := fun f => pkPath.contains f
  let orderingSource : OrderSource ←
    match orderField with
    | none => pure OrderSource.store
    | some f =>
      let isPK := isPKField f
      let isIndex := st.cfg.index.contains f
      if !isPK && !isIndex then
        .error (.orderFieldNotIndexed f)
      else if isPK && pkPath.length > 1 && !(pkPath.head? = some f : Bool) then
        .error (.orderNotFirstPKField f)
      else
        pure (if isPK then OrderSource.store else OrderSource.idx f)
  let pkWheres := wheres.filter (fun w => isPKField w.field)
  let indexWheres := wheres.filter (fun w => !isPKField w.field)
  let pkSets : List (List JSVal) ←
    if pkWheres.length > 0 then do
      let range ← buildCompositePKRange pkPath pkWheres (pkPath.length > 1)
      match range with
      | some r => pure [scanStoreKeys st r]
      | none => pure []
    else pure []
  let filterSets : List (List JSVal) ← indexWheres.foldlM
    (fun (sets : List (List JSVal)) w => do
      if orderField = some w.field then pure sets
      else if !st.cfg.index.contains w.field then .error (.fieldNotIndexed w.field)
      else
        let range : KeyRange :=
          match w.op with
          | .eq => .only w.value
          | .gt => .lowerB w.value true
          | .ge => .lowerB w.value false
          | .lt => .upperB w.value true
          | .le => .upperB w.value false
        pure (sets ++ [scanIndexKeys st w.field range]))
    pkSets
  let normalizedFilterSets := filterSets.map (fun s => s.map normalizeKey)
  let seq : List JSVal :=
    match orderingSource with
    | .store =>
      let ks := sortedPKs st
      if orderDesc then ks.reverse else ks
    | .idx f =>
      let es := idxEntries st f
      ((if orderDesc then es.reverse else es).map (·.2))
  pure (cursorWalk normalizedFilterSets offset limit seq 0 0)

end Engine

/-- The filter / order / pagination state a `QueryBuilder` accumulates. -/
structure QuerySpec : Type where
  wheres : List WhereClause
  orderField : Option String
  orderDesc : Bool
  limit : Option Nat
  offset : Nat
deriving Repr

/-- `RemoveQuery.exec`: run the read pipeline in keys-only mode, delete each
key from the substrate collecting it, and return the collected keys.  The
cache is not touched anywhere on this path. -/
def RemoveQuery.exec (st : EngineState) (q : QuerySpec) :
    Except QErr (EngineState × List JSVal) := do
  let keys ← Engine.getKeysByIndexes st q.wheres q.orderField q.orderDesc q.limit q.offset
  let st2 := keys.foldl (fun s k => Engine.delete s k) st
  pure (st2, keys)

/-- `Object.assign({}, record, updates)`. -/
def mergePatch (record : Rec) (updates : Rec) : Rec :=
  updates.foldl (fun r p => setF r p.1 p.2) (objLit record)

/-- `UpdateQuery.exec`: run the read pipeline (hydrating records), merge the
patch over each record and `put` it back, and return the number of rows. -/
def UpdateQuery.exec (st : EngineState) (q : QuerySpec) (updates : Rec) :
    Except QErr (EngineState × Nat) := do
  let keys ← Engine.getKeysByIndexes st q.wheres q.orderField q.orderDesc q.limit q.offset
  let hydrated := Engine.getRecordsByKeys st keys
  let st2 := hydrated.2.foldl (fun s r => Engine.put s (mergePatch r updates)) hydrated.1
  pure (st2, hydrated.2.length)

/-- `qdb.update(...).exec()`: the facade wraps `UpdateQuery.exec` and, after
it completes, emits the single event `"{store}-UP"` whose payload is the
caller-supplied patch object.  The emitted events are returned alongside. -/
def qdbUpdateExec (st : EngineState) (q : QuerySpec) (updates : Rec) :
    Except QErr (EngineState × Nat × List (String × Rec)) := do
  let r ← UpdateQuery.exec st q updates
  pure (r.1, r.2, [(st.storeName ++ "-UP", updates)])

/-!  ### Concrete scenarios used by the claim theorems  -/

instance {ε α : Type} [DecidableEq ε] [DecidableEq α] : DecidableEq (Except ε α) :=
  fun x y =>
    match x, y with
    | .ok a, .ok b =>
      if h : a = b then .isTrue (by rw [h]) else .isFalse (by simp [h])
    | .error a, .error b =>
      if h : a = b then .isTrue (by rw [h]) else .isFalse (by simp [h])
    | .ok _, .error _ => .isFalse (by simp)
    | .error _, .ok _ => .isFalse (by simp)

/-- A codec whose decode is a left inverse of its encode: `encode` returns
the payload object itself as the wire value, `decode` is the identity. -/
def idCodec : Codec := ⟨fun r => .obj r, fun w => w⟩

/-- Store with primary key `id`, secondary index `salary`, encoding
disabled, holding the two records `(id 1, salary 50)` and
`(id 2, salary 150)`. -/
def storeC1 : EngineState :=
  { cfg := ⟨["id"], ["salary"], false⟩
    storeName := "Employee"
    codec := idCodec
    cacheLimit := 1000
    substrate := [ (.num 1, [("id", .num 1), ("salary", .num 50)])
                 , (.num 2, [("id", .num 2), ("salary", .num 150)]) ]
    cache := []
    ctr := 0 }

/-- C1: with `where("salary", ">", 100)` and `asc("salary")`, the predicate
targets the ordering field: the index-scan loop skips it and the ordering
cursor is opened with range `null`, so it is applied nowhere.  The engine
returns both keys although the record with key 1 has `salary = 50`, which
fails the predicate; dropping the ordering (or ordering by the primary key)
makes the same predicate filter correctly, returning only key 2. -/
theorem C1_order_field_predicate_dropped :
    Engine.getKeysByIndexes storeC1 [⟨"salary", .gt, .num 100⟩]
        (some "salary") false none 0 = .ok [.num 1, .num 2] ∧
    rangeContains (.lowerB (.num 100) true) (.num 50) = false ∧
    Engine.getKeysByIndexes storeC1 [⟨"salary", .gt, .num 100⟩]
        none false none 0 = .ok [.num 2] ∧
    Engine.getKeysByIndexes storeC1 [⟨"salary", .gt, .num 100⟩]
        (some "id") false none 0 = .ok [.num 2] := by
  refine ⟨by decide, by decide, by decide, by decide⟩

/-- C3: on primary key `[id, age, karma]`, the range walk checks only the
immediately following component.  `{id > 0, age == 25}` fails as the claim
requires, but `{id > 0, karma == 7}` — a predicate strictly after the
ranged component, just not adjacent to it — is accepted: the planner
returns a range built from `id > 0` alone and the `karma` predicate is
silently dropped. -/
theorem C3_range_checks_only_adjacent_component :
    buildCompositePKRange ["id", "age", "karma"]
        [⟨"id", .gt, .num 0⟩, ⟨"karma", .eq, .num 7⟩] true =
      .ok (some (.bound (.arr [.num 0, .arr []]) (.arr [.arr []]) false false)) ∧
    buildCompositePKRange ["id", "age", "karma"]
        [⟨"id", .gt, .num 0⟩, ⟨"age", .eq, .num 25⟩] true =
      .error (.rangeAfterCondition "id") := by
  exact ⟨by decide, by decide⟩

/-- C5 counterexample: the serialization is not injective over valid
primary keys.  The number `1` and the string `"1"` are distinct valid keys
with the same serialized form, and the NUL separator can occur inside a
string component, so the distinct composite keys `["a", "b"]` and
`["a\x00b"]` also collide. -/
theorem C5_normalizeKey_not_injective :
    (JSVal.num 1 ≠ JSVal.str "1" ∧
      normalizeKey (.num 1) = normalizeKey (.str "1")) ∧
    (JSVal.arr [.str "a", .str "b"] ≠ JSVal.arr [.str "a\x00b"] ∧
      normalizeKey (.arr [.str "a", .str "b"]) =
        normalizeKey (.arr [.str "a\x00b"])) := by
  exact ⟨⟨by decide, by decide⟩, ⟨by decide, by decide⟩⟩

/-- C6: `set` evicts with `if (lruKey) this.cache.delete(lruKey)`, so a
falsy least-recently-used key is never evicted.  With capacity 1, inserting
the two distinct keys `0` and `1` leaves both present: the first-inserted
key `0` is still there and the cache holds 2 > 1 entries. -/
theorem C6_falsy_lru_key_is_not_evicted :
    LRUCache.set jsTruthy 1
        (LRUCache.set jsTruthy 1 ([] : List (JSVal × Nat)) (.num 0) 10)
        (.num 1) 11 = [(.num 0, 10), (.num 1, 11)] ∧
    jsTruthy (.num 0) = false := by
  exact ⟨by decide, by decide⟩

/-- C7 counterexample: capacity `C = 1`, cache holding the single (truthy)
key `1`; a `get` on key `1` followed by inserting `C = 1` new distinct key
`2` evicts key `1` — the claim that the accessed key stays present after
`C` further insertions is false.  (It survives only `C - 1` insertions.) -/
theorem C7_get_then_C_inserts_evicts :
    LRUCache.set jsTruthy 1
        (LRUCache.get [((JSVal.num 1), (0 : Nat))] (.num 1)).1 (.num 2) 0 =
      [(.num 2, 0)] := by
  decide

/-!  ### C2: cache / substrate coherence  -/

/-- Every cache key array was allocated before the engine's current
allocation counter.  Every reachable engine state satisfies this: cache
keys are only ever created at the counter, which is then incremented. -/
def cacheWF (st : EngineState) : Prop :=
  ∀ e ∈ st.cache, e.1.id < st.ctr

/-- A lookup with a key array allocated at the current counter never hits:
all cache keys are older allocations, and `Map` compares array keys by
identity. -/
theorem lruGet_fresh {V : Type} (entries : List (RefKey × V)) (r : RefKey)
    (h : ∀ e ∈ entries, e.1.id < r.id) :
    LRUCache.get entries r = (entries, none) := by
  have hf : entries.find? (fun p => p.1 = r) = none := by
    rw [List.find?_eq_none]
    intro e he
    simp only [decide_eq_true_eq]
    intro hek
    have hid := h e he
    rw [hek] at hid
    exact lt_irrefl _ hid
  unfold LRUCache.get
  rw [hf]

theorem find?_map_replace (m : List (JSVal × Rec)) (k : JSVal) (v : Rec)
    (h : (m.find? (fun p => p.1 = k)).isSome) :
    (m.map (fun p => if p.1 = k then (k, v) else p)).find? (fun p => p.1 = k)
      = some (k, v) := by
  induction m with
  | nil => simp at h
  | cons a m ih =>
    by_cases ha : a.1 = k
    · rw [List.map_cons, if_pos ha]
      exact List.find?_cons_of_pos _ (by simp)
    · rw [List.map_cons, if_neg ha,
        List.find?_cons_of_neg _ (by simpa using ha)]
      rw [List.find?_cons_of_neg _ (by simpa using ha)] at h
      exact ih h

/-- After `store.put`, looking the written key up finds the written
record. -/
theorem find?_upsert (m : List (JSVal × Rec)) (k : JSVal) (v : Rec) :
    (upsert m k v).find? (fun p => p.1 = k) = some (k, v) := by
  unfold upsert
  by_cases h : (m.find? (fun p => p.1 = k)).isSome
  · rw [if_pos h]
    exact find?_map_replace m k v h
  · rw [if_neg h, List.find?_append]
    have hn : m.find? (fun p => p.1 = k) = none := by
      cases hcase : m.find? (fun p => p.1 = k) with
      | none => rfl
      | some a => rw [hcase] at h; simp at h
    rw [hn]
    simp

/-- `getRecordsByKeys` on a single key whose fresh-array cache probe misses
and whose substrate read hits returns exactly the decoded stored record. -/
theorem getRecordsByKeys_single (st : EngineState) (k : JSVal) (sr : Rec)
    (hmiss : ∀ e ∈ st.cache, e.1.id < st.ctr)
    (hsub : st.substrate.find? (fun p => p.1 = k) = some (k, sr)) :
    (Engine.getRecordsByKeys st [k]).2 = [Engine.decode st.cfg st.codec sr] := by
  unfold Engine.getRecordsByKeys
  simp only [List.foldl_cons, List.foldl_nil]
  rw [lruGet_fresh st.cache ⟨st.ctr, st.storeName, k⟩ hmiss]
  simp [hsub]

/-- C2, amended: a read of `k` performed after `put(k, v)` returns `v`
(given that the codec round-trips `v`) — but only because the read is
always served from the substrate: the cache is probed with a freshly
allocated `[storeName, k]` array, which can never equal a stored `Map`
key. -/
theorem C2_get_after_put (st : EngineState) (v : Rec)
    (hWF : cacheWF st)
    (hrt : Engine.decode st.cfg st.codec (Engine.encode st.cfg st.codec v) = v) :
    (Engine.getRecordsByKeys (Engine.put st v)
        [extractKey st.cfg.pk (Engine.encode st.cfg st.codec v)]).2 = [v] := by
  have h1 : (Engine.put st v).cache = st.cache := rfl
  have h2 : (Engine.put st v).ctr = st.ctr := rfl
  rw [getRecordsByKeys_single (Engine.put st v) _ (Engine.encode st.cfg st.codec v)
    (by rw [h1, h2]; exact hWF)
    (find?_upsert st.substrate _ (Engine.encode st.cfg st.codec v))]
  show [Engine.decode st.cfg st.codec (Engine.encode st.cfg st.codec v)] = [v]
  rw [hrt]

/-!  `cacheWF` holds of every state the engine can reach: the empty engine
satisfies it, and each operation preserves it, because cache keys are only
ever allocated at the counter, which is then incremented.  -/

theorem lruGet_subset {K V : Type} [DecidableEq K] (entries : List (K × V)) (k : K) :
    ∀ e ∈ (LRUCache.get entries k).1, e ∈ entries := by
  unfold LRUCache.get
  cases hf : entries.find? (fun p => p.1 = k) with
  | none => intro e he; exact he
  | some a =>
    intro e he
    simp only at he
    rcases List.mem_append.1 he with h | h
    · exact List.mem_of_mem_eraseP h
    · simp only [List.mem_singleton] at h
      have hk := List.find?_some hf
      simp only [decide_eq_true_eq] at hk
      have : (k, a.2) = a := by
        rw [← hk]
      rw [h, this]
      exact List.mem_of_find?_eq_some hf

theorem prune_subset {K V : Type} (truthy : K → Bool) (cap : Nat)
    (l : List (K × V)) :
    ∀ e ∈ (if l.length > cap then
        match l with
        | [] => l
        | (k0, _) :: rest => if truthy k0 then rest else l
      else l), e ∈ l := by
  cases l with
  | nil =>
    intro e he
    split at he <;> exact he
  | cons p rest =>
    obtain ⟨k0, w⟩ := p
    intro e he
    by_cases hlen : ((k0, w) :: rest).length > cap
    · rw [if_pos hlen] at he
      have he2 : e ∈ (if truthy k0 then rest else (k0, w) :: rest) := he
      by_cases ht : truthy k0
      · rw [if_pos ht] at he2
        exact List.mem_cons_of_mem _ he2
      · rw [if_neg ht] at he2
        exact he2
    · rw [if_neg hlen] at he
      exact he

theorem lruSet_subset {K V : Type} [DecidableEq K] (truthy : K → Bool) (cap : Nat)
    (entries : List (K × V)) (k : K) (v : V) :
    ∀ e ∈ LRUCache.set truthy cap entries k v, e ∈ entries ∨ e = (k, v) := by
  intro e he
  have h2 := prune_subset truthy cap
    ((if (entries.find? (fun p => p.1 = k)).isSome
      then entries.eraseP (fun p => decide (p.1 = k)) else entries) ++ [(k, v)]) e he
  rcases List.mem_append.1 h2 with h | h
  · split at h
    · exact Or.inl (List.mem_of_mem_eraseP h)
    · exact Or.inl h
  · simp only [List.mem_singleton] at h
    exact Or.inr h

theorem cacheWF_put (st : EngineState) (v : Rec) (h : cacheWF st) :
    cacheWF (Engine.put st v) := h

theorem cacheWF_delete (st : EngineState) (k : JSVal) (h : cacheWF st) :
    cacheWF (Engine.delete st k) := h

theorem cacheWF_getRecordsByKeys (st : EngineState) (keys : List JSVal)
    (h : cacheWF st) : cacheWF (Engine.getRecordsByKeys st keys).1 := by
  unfold Engine.getRecordsByKeys
  simp only
  have hprobe : ∀ (ks : List JSVal) (s : EngineState)
      (hits : List (JSVal × Rec)) (ms : List JSVal), cacheWF s →
      cacheWF (ks.foldl
        (fun (acc : EngineState × List (JSVal × Rec) × List JSVal) k =>
          let s := acc.1
          let hits := acc.2.1
          let misses := acc.2.2
          let ref : RefKey := ⟨s.ctr, s.storeName, k⟩
          let s := { s with ctr := s.ctr + 1 }
          match LRUCache.get s.cache ref with
          | (c, some v) => ({ s with cache := c }, hits ++ [(k, v)], misses)
          | (c, none) => ({ s with cache := c }, hits, misses ++ [k]))
        (s, (hits, ms))).1 := by
    intro ks
    induction ks with
    | nil => intro s hits ms hs; exact hs
    | cons k ks ih =>
      intro s hits ms hs
      rw [List.foldl_cons]
      have hstep : ∀ (c : List (RefKey × Rec)),
          (∀ e ∈ c, e ∈ s.cache) →
          cacheWF { s with ctr := s.ctr + 1, cache := c } := by
        intro c hc e he
        have := hs e (hc e he)
        simp only
        omega
      cases hg : LRUCache.get { s with ctr := s.ctr + 1 }.cache
          ⟨s.ctr, s.storeName, k⟩ with
      | mk c o =>
        have hcsub : ∀ e ∈ c, e ∈ s.cache := by
          intro e he
          have := lruGet_subset ({ s with ctr := s.ctr + 1 }).cache
            ⟨s.ctr, s.storeName, k⟩ e
          rw [hg] at this
          exact this he
        cases o with
        | some v => exact ih _ _ _ (by simp only [hg]; exact hstep c hcsub)
        | none => exact ih _ _ _ (by simp only [hg]; exact hstep c hcsub)
  have hfetch : ∀ (ms : List JSVal) (s : EngineState) (got : List (JSVal × Rec)),
      cacheWF s →
      cacheWF (ms.foldl
        (fun (acc : EngineState × List (JSVal × Rec)) k =>
          let s := acc.1
          let got := acc.2
          match s.substrate.find? (fun p => p.1 = k) with
          | some pr =>
            let res := Engine.decode s.cfg s.codec pr.2
            let ref : RefKey := ⟨s.ctr, s.storeName, k⟩
            ({ s with ctr := s.ctr + 1,
                      cache := LRUCache.set (fun _ => true) s.cacheLimit s.cache ref res },
             got ++ [(k, res)])
          | none => (s, got))
        (s, got)).1 := by
    intro ms
    induction ms with
    | nil => intro s got hs; exact hs
    | cons k ms ih =>
      intro s got hs
      rw [List.foldl_cons]
      cases hf : s.substrate.find? (fun p => p.1 = k) with
      | none => exact ih _ _ (by simp only [hf]; exact hs)
      | some pr =>
        apply ih
        simp only [hf]
        intro e he
        simp only at he ⊢
        rcases lruSet_subset (fun _ => true) s.cacheLimit s.cache
          ⟨s.ctr, s.storeName, k⟩ (Engine.decode s.cfg s.codec pr.2) e he with hin | heq
        · have := hs e hin
          omega
        · rw [heq]
          simp
  exact hfetch _ _ _ (hprobe keys st [] [] h)

/-- Engine over a store with primary key `id`, no secondary index and
encoding disabled, starting empty. -/
def storeC2 : EngineState :=
  { cfg := ⟨["id"], [], false⟩
    storeName := "s"
    codec := idCodec
    cacheLimit := 1000
    substrate := []
    cache := []
    ctr := 0 }

def recC2 : Rec := [("id", .num 1), ("x", .num 1)]

def recC2' : Rec := [("id", .num 1), ("x", .num 2)]

/-- `put recC2`, then a hydrating read of key 1 (which caches the record),
then `put recC2'` overwriting it. -/
def storeC2run : EngineState :=
  Engine.put ((Engine.getRecordsByKeys (Engine.put storeC2 recC2) [.num 1]).1) recC2'

/-- C2 counterexample: after the second `put`, the cache still holds the
entry created for key 1 by the earlier read, and that entry carries the old
record — it neither reflects the new record nor has been removed.  The
stale entry is merely never served: a fresh read still returns the new
record from the substrate. -/
theorem C2_stale_cache_entry_after_put :
    storeC2run.cache = [(⟨1, "s", .num 1⟩, recC2)] ∧
    recC2 ≠ recC2' ∧
    (Engine.getRecordsByKeys storeC2run [.num 1]).2 = [recC2'] := by
  refine ⟨by decide, by decide, by decide⟩

/-- C2 witness: a concrete engine (encoding disabled, so the codec
round-trips trivially) on which the amended read-after-put theorem
applies. -/
theorem C2_witness :
    cacheWF storeC2 ∧
    (Engine.getRecordsByKeys (Engine.put storeC2 recC2)
        [extractKey storeC2.cfg.pk (Engine.encode storeC2.cfg storeC2.codec recC2)]).2
      = [recC2] := by
  refine ⟨?_, ?_⟩
  · intro e he
    simp [storeC2] at he
  · exact C2_get_after_put storeC2 recC2 (by intro e he; simp [storeC2] at he) rfl

/-!  ### C8: remove deletes from the substrate and returns the keys  -/

theorem foldl_delete_cache (st : EngineState) (ks : List JSVal) :
    (ks.foldl (fun s k => Engine.delete s k) st).cache = st.cache := by
  induction ks generalizing st with
  | nil => rfl
  | cons k ks ih =>
    rw [List.foldl_cons, ih]
    rfl

theorem foldl_delete_substrate (st : EngineState) (ks : List JSVal) :
    (ks.foldl (fun s k => Engine.delete s k) st).substrate =
      ks.foldl (fun m k => m.filter (fun p => !(p.1 = k : Bool))) st.substrate := by
  induction ks generalizing st with
  | nil => rfl
  | cons k ks ih =>
    rw [List.foldl_cons, List.foldl_cons, ih]
    rfl

theorem find?_filter_ne (m : List (JSVal × Rec)) (k k' : JSVal)
    (h : m.find? (fun p => p.1 = k) = none) :
    (m.filter (fun p => !(p.1 = k' : Bool))).find? (fun p => p.1 = k) = none := by
  rw [List.find?_eq_none] at h ⊢
  intro x hx
  exact h x (List.mem_of_mem_filter hx)

theorem find?_filter_self (m : List (JSVal × Rec)) (k : JSVal) :
    (m.filter (fun p => !(p.1 = k : Bool))).find? (fun p => p.1 = k) = none := by
  rw [List.find?_eq_none]
  intro x hx
  have hxp := List.of_mem_filter hx
  simp only [Bool.not_eq_true', decide_eq_false_iff_not] at hxp
  simp only [decide_eq_true_eq]
  exact hxp

theorem find?_foldl_filter_none (ks : List JSVal) (m : List (JSVal × Rec)) (k : JSVal)
    (h : m.find? (fun p => p.1 = k) = none) :
    (ks.foldl (fun m k' => m.filter (fun p => !(p.1 = k' : Bool))) m).find?
      (fun p => p.1 = k) = none := by
  induction ks generalizing m with
  | nil => exact h
  | cons k' ks ih =>
    rw [List.foldl_cons]
    exact ih _ (find?_filter_ne m k k' h)

theorem find?_foldl_filter_of_mem (ks : List JSVal) (m : List (JSVal × Rec))
    (k : JSVal) (hk : k ∈ ks) :
    (ks.foldl (fun m k' => m.filter (fun p => !(p.1 = k' : Bool))) m).find?
      (fun p => p.1 = k) = none := by
  induction ks generalizing m with
  | nil => cases hk
  | cons k' ks ih =>
    rw [List.foldl_cons]
    rcases List.mem_cons.1 hk with h | h
    · subst h
      exact find?_foldl_filter_none ks _ k (find?_filter_self m k)
    · exact ih _ h

/-- C8, amended: a completing `RemoveQuery.exec` returns exactly the keys
the read pipeline produced; each of those keys is gone from the substrate
afterwards; and the cache is left untouched — no cache entry is removed. -/
theorem C8_remove_exec (st : EngineState) (q : QuerySpec) (st2 : EngineState)
    (ks : List JSVal)
    (h : RemoveQuery.exec st q = .ok (st2, ks)) :
    Engine.getKeysByIndexes st q.wheres q.orderField q.orderDesc q.limit q.offset
        = .ok ks ∧
    (∀ k ∈ ks, st2.substrate.find? (fun p => p.1 = k) = none) ∧
    st2.cache = st.cache := by
  unfold RemoveQuery.exec at h
  cases hq : Engine.getKeysByIndexes st q.wheres q.orderField q.orderDesc q.limit q.offset with
  | error e =>
    rw [hq] at h
    simp only [Bind.bind, Except.bind] at h
    cases h
  | ok keys =>
    rw [hq] at h
    simp only [Bind.bind, Except.bind, pure, Except.pure, Except.ok.injEq,
      Prod.mk.injEq] at h
    obtain ⟨hst, hks⟩ := h
    subst hks
    subst hst
    refine ⟨rfl, ?_, foldl_delete_cache st keys⟩
    intro k hk
    rw [foldl_delete_substrate]
    exact find?_foldl_filter_of_mem keys st.substrate k hk

/-- Engine holding one record (key 1) in the substrate and one cache entry
whose key array names the same primary key. -/
def storeC8 : EngineState :=
  { cfg := ⟨["id"], [], false⟩
    storeName := "s"
    codec := idCodec
    cacheLimit := 1000
    substrate := [(.num 1, [("id", .num 1)])]
    cache := [(⟨0, "s", .num 1⟩, [("id", .num 1)])]
    ctr := 1 }

def qC8 : QuerySpec := ⟨[⟨"id", .eq, .num 1⟩], none, false, none, 0⟩

/-- C8 counterexample: removing key 1 deletes it from the substrate and
returns `[1]`, but the cache entry for key 1 is still there afterwards —
the claim that the removed key's cache entry is removed is false. -/
theorem C8_cache_entry_not_removed :
    RemoveQuery.exec storeC8 qC8 = .ok (Engine.delete storeC8 (.num 1), [.num 1]) ∧
    (Engine.delete storeC8 (.num 1)).substrate = [] ∧
    (Engine.delete storeC8 (.num 1)).cache = [(⟨0, "s", .num 1⟩, [("id", .num 1)])] := by
  refine ⟨rfl, by decide, by decide⟩

/-- C8 witness: the amended theorem applied to the concrete removal of
key 1. -/
theorem C8_remove_witness :
    Engine.getKeysByIndexes storeC8 qC8.wheres qC8.orderField qC8.orderDesc
        qC8.limit qC8.offset = .ok [.num 1] ∧
    (Engine.delete storeC8 (.num 1)).substrate.find? (fun p => p.1 = .num 1) = none ∧
    (Engine.delete storeC8 (.num 1)).cache = storeC8.cache := by
  have h := C8_remove_exec storeC8 qC8 (Engine.delete storeC8 (.num 1)) [.num 1] rfl
  exact ⟨h.1, h.2.1 (.num 1) (by simp), h.2.2⟩

/-!  ### C10: update emits one event carrying the patch  -/

/-- C10: every completing `update(...).exec()` emits exactly one event,
named `"{store}-UP"`, whose payload is the caller-supplied patch object —
independently of how many rows matched (including zero). -/
theorem C10_update_emits_patch_event (st : EngineState) (q : QuerySpec)
    (updates : Rec) (res : EngineState × Nat × List (String × Rec))
    (h : qdbUpdateExec st q updates = .ok res) :
    res.2.2 = [(st.storeName ++ "-UP", updates)] := by
  unfold qdbUpdateExec at h
  cases hu : UpdateQuery.exec st q updates with
  | error e =>
    rw [hu] at h
    simp only [Bind.bind, Except.bind] at h
    cases h
  | ok r =>
    rw [hu] at h
    simp only [Bind.bind, Except.bind, pure, Except.pure, Except.ok.injEq] at h
    rw [← h]

def storeC10 : EngineState :=
  { cfg := ⟨["id"], [], false⟩
    storeName := "s"
    codec := idCodec
    cacheLimit := 1000
    substrate := []
    cache := []
    ctr := 0 }

def qC10 : QuerySpec := ⟨[], none, false, none, 0⟩

def patchC10 : Rec := [("x", .num 9)]

/-- C10 witness: an update matching zero rows still completes with exactly
the one `"s-UP"` event carrying the patch. -/
theorem C10_update_event_witness :
    qdbUpdateExec storeC10 qC10 patchC10 = .ok (storeC10, 0, [("s-UP", patchC10)]) ∧
    ([("s-UP", patchC10)] : List (String × Rec))
      = [(storeC10.storeName ++ "-UP", patchC10)] := by
  have h : qdbUpdateExec storeC10 qC10 patchC10
      = .ok (storeC10, 0, [("s-UP", patchC10)]) := rfl
  exact ⟨h, C10_update_emits_patch_event storeC10 qC10 patchC10 _ h⟩

/-!  ### C7: a `get` refreshes recency  -/

theorem keys_subset_aux {V : Type} (old : List (JSVal × V)) (k : JSVal) (w : V)
    (newl : List (JSVal × V)) (hsub : ∀ p ∈ newl, p ∈ old ∨ p = (k, w)) :
    ∀ x ∈ newl.map Prod.fst, x ∈ old.map Prod.fst ∨ x = k := by
  intro x hx
  rw [List.mem_map] at hx
  obtain ⟨p, hp, rfl⟩ := hx
  rcases hsub p hp with h | h
  · exact Or.inl (List.mem_map_of_mem Prod.fst h)
  · right
    rw [h]

/-- Inserting a key absent from the entries keeps the distinguished entry
`(K, v)` in place as long as it has at least one predecessor: the insertion
appends at the most-recent end and evicts at most the oldest entry, which
is a predecessor of `K`. -/
theorem lru_set_fresh_split {V : Type} (truthy : JSVal → Bool) (cap : Nat)
    (pre post : List (JSVal × V)) (K : JSVal) (v : V) (k : JSVal) (w : V)
    (hk : k ∉ (pre ++ (K, v) :: post).map Prod.fst)
    (hpre : pre ≠ []) :
    ∃ pre2 post2,
      LRUCache.set truthy cap (pre ++ (K, v) :: post) k w = pre2 ++ (K, v) :: post2 ∧
      pre.length ≤ pre2.length + 1 ∧
      ∀ x ∈ (pre2 ++ (K, v) :: post2).map Prod.fst,
        x ∈ (pre ++ (K, v) :: post).map Prod.fst ∨ x = k := by
  have hfind : (pre ++ (K, v) :: post).find? (fun p => p.1 = k) = none := by
    rw [List.find?_eq_none]
    intro x hx
    simp only [decide_eq_true_eq]
    intro hxk
    exact hk (hxk ▸ List.mem_map_of_mem Prod.fst hx)
  cases pre with
  | nil => exact absurd rfl hpre
  | cons p0 pre' =>
    unfold LRUCache.set
    rw [hfind]
    simp only [Option.isSome_none, Bool.false_eq_true, if_false]
    split
    · show ∃ pre2 post2,
        (match p0 :: (pre' ++ (K, v) :: post ++ [(k, w)]) with
          | [] => p0 :: (pre' ++ (K, v) :: post ++ [(k, w)])
          | (k0, _) :: rest => if truthy k0 then rest
              else p0 :: (pre' ++ (K, v) :: post ++ [(k, w)])) = pre2 ++ (K, v) :: post2 ∧ _
      by_cases ht : truthy p0.1
      · refine ⟨pre', post ++ [(k, w)], ?_, ?_, ?_⟩
        · simp [ht]
        · simp
        · apply keys_subset_aux
          intro p hp
          simp only [List.cons_append, List.mem_cons, List.mem_append,
            List.mem_singleton] at hp ⊢
          tauto
      · refine ⟨p0 :: pre', post ++ [(k, w)], ?_, ?_, ?_⟩
        · simp [ht]
        · simp
        · apply keys_subset_aux
          intro p hp
          simp only [List.cons_append, List.mem_cons, List.mem_append,
            List.mem_singleton] at hp ⊢
          tauto
    · refine ⟨p0 :: pre', post ++ [(k, w)], ?_, ?_, ?_⟩
      · simp
      · simp
      · apply keys_subset_aux
        intro p hp
        simp only [List.cons_append, List.mem_cons, List.mem_append,
          List.mem_singleton] at hp ⊢
        tauto

/-- Folding fresh, pairwise-distinct insertions over a cache in which `K`
has at least as many predecessors as there are insertions keeps `K`
present. -/
theorem lru_fold_keeps {V : Type} (truthy : JSVal → Bool) (cap : Nat) (K : JSVal) :
    ∀ (ks : List (JSVal × V)) (pre post : List (JSVal × V)) (v : V),
      ks.length ≤ pre.length →
      (ks.map Prod.fst).Nodup →
      (∀ k ∈ ks.map Prod.fst, k ∉ (pre ++ (K, v) :: post).map Prod.fst) →
      ∃ pre2 post2,
        ks.foldl (fun e p => LRUCache.set truthy cap e p.1 p.2)
            (pre ++ (K, v) :: post) = pre2 ++ (K, v) :: post2
  | [], pre, post, v, _, _, _ => ⟨pre, post, rfl⟩
  | (k, w) :: ks, pre, post, v, hlen, hnd, hfresh => by
    have hpre : pre ≠ [] := by
      intro h
      rw [h] at hlen
      simp at hlen
    have hk : k ∉ (pre ++ (K, v) :: post).map Prod.fst :=
      hfresh k (by simp)
    obtain ⟨pre2, post2, heq, hlen2, hsub⟩ :=
      lru_set_fresh_split truthy cap pre post K v k w hk hpre
    rw [List.foldl_cons, heq]
    apply lru_fold_keeps truthy cap K ks pre2 post2 v
    · have h1 : ks.length + 1 ≤ pre.length := by simpa using hlen
      omega
    · have hnd2 := List.nodup_cons.1 (by rw [List.map_cons] at hnd; exact hnd)
      exact hnd2.2
    · intro k' hk'
      intro hmem
      rcases hsub k' hmem with h | h
      · exact hfresh k' (by simp [hk']) h
      · have hnd2 := List.nodup_cons.1 (by rw [List.map_cons] at hnd; exact hnd)
        rw [h] at hk'
        exact hnd2.1 hk'

/-- C7, amended: for capacity `C`, starting from a cache of `C` distinct
keys containing `K`, a `get` on `K` followed by inserting at most `C - 1`
new pairwise-distinct keys keeps `K` present — the `get` moves `K` to the
most-recently-used end, so the following insertions evict only the `C - 1`
entries older than `K`. -/
theorem C7_get_refreshes_recency {V : Type} (cap : Nat)
    (entries : List (JSVal × V)) (K : JSVal) (v : V) (ks : List (JSVal × V))
    (hcap : entries.length = cap)
    (hnd : (entries.map Prod.fst).Nodup)
    (hK : (K, v) ∈ entries)
    (hlen : ks.length + 1 ≤ cap)
    (hksnd : (ks.map Prod.fst).Nodup)
    (hfresh : ∀ k ∈ ks.map Prod.fst, k ∉ entries.map Prod.fst) :
    K ∈ (ks.foldl (fun e p => LRUCache.set jsTruthy cap e p.1 p.2)
        (LRUCache.get entries K).1).map Prod.fst := by
  obtain ⟨A, B, hAB⟩ := List.append_of_mem hK
  subst hAB
  have hndk : (A.map Prod.fst).Nodup ∧ ((K :: B.map Prod.fst).Nodup) ∧
      ∀ x ∈ A.map Prod.fst, x ∉ K :: B.map Prod.fst := by
    rw [List.map_append, List.map_cons, List.nodup_append] at hnd
    exact ⟨hnd.1, hnd.2.1, fun x hx => hnd.2.2 hx⟩
  have hKA : K ∉ A.map Prod.fst := fun h => hndk.2.2 K h (by simp)
  have hArec : ∀ x ∈ A, ¬ (decide (x.1 = K) = true) := by
    intro x hx
    simp only [decide_eq_true_eq]
    intro hxK
    exact hKA (hxK ▸ List.mem_map_of_mem Prod.fst hx)
  have hget : (LRUCache.get (A ++ (K, v) :: B) K).1 = (A ++ B) ++ (K, v) :: [] := by
    unfold LRUCache.get
    have hfind : (A ++ (K, v) :: B).find? (fun p => p.1 = K) = some (K, v) := by
      rw [List.find?_append]
      have hA : A.find? (fun p => p.1 = K) = none := List.find?_eq_none.2 hArec
      rw [hA, List.find?_cons_of_pos _ (by simp)]
      rfl
    rw [hfind]
    have herase : (A ++ (K, v) :: B).eraseP (fun p => decide (p.1 = K)) = A ++ B := by
      rw [List.eraseP_append_right _ hArec, List.eraseP_cons_of_pos (by simp)]
    simp only [herase]
  rw [hget]
  obtain ⟨pre2, post2, heq⟩ :=
    lru_fold_keeps jsTruthy cap K ks (A ++ B) [] v
      (by
        have : A.length + (B.length + 1) = cap := by simpa using hcap
        simp only [List.length_append]
        omega)
      hksnd
      (by
        intro x hx hmem
        apply hfresh x hx
        rw [List.mem_map] at hmem
        obtain ⟨p, hp, rfl⟩ := hmem
        refine List.mem_map_of_mem Prod.fst ?_
        simp only [List.mem_append, List.mem_cons, List.mem_singleton] at hp ⊢
        tauto)
  rw [heq]
  simp

/-!  ### C4: contiguity of composite-primary-key equality predicates  -/

theorem fieldToWhere_mem (wheres : List WhereClause) (f : String) (w : WhereClause)
    (h : fieldToWhere wheres f = some w) : w ∈ wheres ∧ w.field = f := by
  unfold fieldToWhere at h
  refine ⟨List.mem_reverse.1 (List.mem_of_find?_eq_some h), ?_⟩
  have := List.find?_some h
  simpa using this

/-- With only equality clauses on nonempty field names, the walk consumes
exactly the longest prefix of components that carry a clause, accumulating
their values, and records no range operator. -/
theorem pkWalk_all_eq (wheres : List WhereClause)
    (heq : ∀ w ∈ wheres, w.op = Opc.eq) :
    ∀ (l : List String) (acc : List JSVal), (∀ f ∈ l, f ≠ "") →
      pkWalk wheres l acc =
        .ok (acc ++ (l.takeWhile (fun f => (fieldToWhere wheres f).isSome)).map
          (fun f => ((fieldToWhere wheres f).map (fun w => w.value)).getD .undef),
          none) := by
  intro l
  induction l with
  | nil =>
    intro acc _
    simp [pkWalk]
  | cons f l ih =>
    intro acc hne
    have hf : f ≠ "" := hne f (by simp)
    unfold pkWalk
    rw [if_neg hf]
    cases hw : fieldToWhere wheres f with
    | none => simp [List.takeWhile_cons, hw]
    | some w =>
      have hweq : w.op = Opc.eq := heq w (fieldToWhere_mem wheres f w hw).1
      simp only [hweq, reduceIte,
        ih (acc ++ [w.value]) (fun g hg => hne g (List.mem_cons_of_mem f hg))]
      simp [List.takeWhile_cons, hw, List.append_assoc]

/-- If every clause-bearing component lies below the accumulated prefix
length, the contiguity loop passes. -/
theorem contiguityCheck_ok (wheres : List WhereClause) (plen : Nat) :
    ∀ (l : List String) (i : Nat) (prev : Option String),
      (∀ j (hj : j < l.length),
        (fieldToWhere wheres (l.get ⟨j, hj⟩)).isSome → i + j < plen) →
      contiguityCheck wheres plen false i prev l = .ok () := by
  intro l
  induction l with
  | nil => intro i prev _; rfl
  | cons f l ih =>
    intro i prev hbound
    unfold contiguityCheck
    have hcond : ¬(f ≠ "" ∧ (fieldToWhere wheres f).isSome = true ∧ plen ≤ i ∧
        (false = false)) := by
      rintro ⟨-, hsome, hle, -⟩
      have h0 := hbound 0 (by simp) (by simpa using hsome)
      omega
    rw [if_neg hcond]
    apply ih (i + 1)
    intro j hj hsome
    have := hbound (j + 1) (by simpa using Nat.succ_lt_succ hj) (by simpa using hsome)
    omega

/-- If some component at or beyond the accumulated prefix length carries a
clause (and no range operator was recorded), the contiguity loop throws. -/
theorem contiguityCheck_err (wheres : List WhereClause) (plen : Nat) :
    ∀ (l : List String) (i : Nat) (prev : Option String),
      (∃ j, ∃ hj : j < l.length, (l.get ⟨j, hj⟩) ≠ "" ∧
        (fieldToWhere wheres (l.get ⟨j, hj⟩)).isSome ∧ plen ≤ i + j) →
      ∃ f p, contiguityCheck wheres plen false i prev l
        = .error (.nonContiguous f p) := by
  intro l
  induction l with
  | nil =>
    rintro i prev ⟨j, hj, -⟩
    exact absurd hj (by simp)
  | cons f l ih =>
    intro i prev hex
    unfold contiguityCheck
    by_cases hcond : (f ≠ "" ∧ (fieldToWhere wheres f).isSome = true ∧ plen ≤ i ∧
        ((false : Bool) = false))
    · rw [if_pos hcond]
      exact ⟨f, prev.getD "undefined", rfl⟩
    · rw [if_neg hcond]
      apply ih (i + 1)
      obtain ⟨j, hj, hne2, hsome, hple⟩ := hex
      cases j with
      | zero =>
        exact absurd ⟨by simpa using hne2, by simpa using hsome, by omega, rfl⟩ hcond
      | succ j =>
        exact ⟨j, by simpa using hj, by simpa using hne2, by simpa using hsome, by omega⟩

/-- An index below the `takeWhile` length lands inside the `takeWhile`. -/
theorem get_mem_takeWhile (p : String → Bool) :
    ∀ (l : List String) (j : Nat) (hj : j < l.length),
      j < (l.takeWhile p).length → l.get ⟨j, hj⟩ ∈ l.takeWhile p
  | [], j, hj, _ => absurd hj (by simp)
  | x :: l, j, hj, hlt => by
    cases hpx : p x with
    | false =>
      rw [List.takeWhile_cons_of_neg (by simp [hpx])] at hlt
      simp at hlt
    | true =>
      rw [List.takeWhile_cons_of_pos hpx] at hlt ⊢
      cases j with
      | zero => simp [List.get]
      | succ j =>
        simp only [List.length_cons, Nat.succ_lt_succ_iff] at hlt
        exact List.mem_cons_of_mem x
          (get_mem_takeWhile p l j (by simpa using hj) hlt)

/-- C4: on a composite primary key (at least two distinct, nonempty
components) with equality clauses only, (1) if some clause's field lies
beyond the contiguous clause-covered prefix of the key — i.e. a component
is skipped — planning fails with the contiguity error, and (2) if every
component carries an equality clause, planning succeeds with the point
range `only([v_1, ..., v_n])` in component order. -/
theorem C4_contiguity (pkPath : List String) (wheres : List WhereClause)
    (hlen : 2 ≤ pkPath.length)
    (hnd : pkPath.Nodup)
    (hne : ∀ f ∈ pkPath, f ≠ "")
    (hops : ∀ w ∈ wheres, w.op = Opc.eq ∧ w.field ∈ pkPath) :
    ((∃ w ∈ wheres,
        w.field ∉ pkPath.takeWhile (fun f => (fieldToWhere wheres f).isSome)) →
      ∃ f p, buildCompositePKRange pkPath wheres true
        = .error (.nonContiguous f p)) ∧
    ((∀ f ∈ pkPath, (fieldToWhere wheres f).isSome) →
      buildCompositePKRange pkPath wheres true =
        .ok (some (.only (.arr (pkPath.map
          (fun f => ((fieldToWhere wheres f).map (fun w => w.value)).getD
            .undef)))))) := by
  have heq : ∀ w ∈ wheres, w.op = Opc.eq := fun w hw => (hops w hw).1
  have hwalk := pkWalk_all_eq wheres heq pkPath [] hne
  constructor
  · rintro ⟨w, hw, hnotin⟩
    have hwne : wheres ≠ [] := by
      intro h
      rw [h] at hw
      cases hw
    have hsome : (fieldToWhere wheres w.field).isSome := by
      unfold fieldToWhere
      rw [List.find?_isSome]
      exact ⟨w, List.mem_reverse.2 hw, by simp⟩
    obtain ⟨⟨j, hj⟩, hget⟩ := List.mem_iff_get.1 (hops w hw).2
    have hple : (pkPath.takeWhile
        (fun f => (fieldToWhere wheres f).isSome)).length ≤ j := by
      by_contra hlt
      push_neg at hlt
      exact hnotin (hget ▸ get_mem_takeWhile _ pkPath j hj hlt)
    obtain ⟨f, p, herr⟩ := contiguityCheck_err wheres
      ((pkPath.takeWhile (fun f => (fieldToWhere wheres f).isSome)).map
        (fun f => ((fieldToWhere wheres f).map (fun w => w.value)).getD
          .undef)).length
      pkPath 0 none
      ⟨j, hj, hne _ (List.get_mem _ _ _), by rw [hget]; exact hsome,
        by simpa using hple⟩
    refine ⟨f, p, ?_⟩
    unfold buildCompositePKRange
    rw [if_neg hwne]
    rw [hwalk]
    simp only [Bind.bind, Except.bind, List.nil_append, Option.isSome_none]
    rw [herr]
    rfl
  · intro hcov
    have hwne : wheres ≠ [] := by
      intro h
      obtain ⟨f0, hf0⟩ := List.exists_mem_of_ne_nil pkPath
        (by intro hp; rw [hp] at hlen; simp at hlen)
      have := hcov f0 hf0
      rw [h] at this
      simp [fieldToWhere] at this
    have htake : pkPath.takeWhile (fun f => (fieldToWhere wheres f).isSome)
        = pkPath := List.takeWhile_eq_self_iff.2 hcov
    have hpfxlen : ((pkPath.takeWhile
        (fun f => (fieldToWhere wheres f).isSome)).map
        (fun f => ((fieldToWhere wheres f).map (fun w => w.value)).getD
          .undef)).length = pkPath.length := by
      rw [htake, List.length_map]
    have hok := contiguityCheck_ok wheres
      ((pkPath.takeWhile (fun f => (fieldToWhere wheres f).isSome)).map
        (fun f => ((fieldToWhere wheres f).map (fun w => w.value)).getD
          .undef)).length
      pkPath 0 none
      (by
        intro j hj _
        rw [hpfxlen]
        omega)
    unfold buildCompositePKRange
    rw [if_neg hwne]
    rw [hwalk]
    simp only [Bind.bind, Except.bind, List.nil_append, Option.isSome_none]
    rw [hok, htake]
    have hnil : pkPath.map
        (fun f => ((fieldToWhere wheres f).map (fun w => w.value)).getD
          JSVal.undef) ≠ [] := by
      intro h
      rw [List.map_eq_nil_iff] at h
      rw [h] at hlen
      simp at hlen
    simp [pure, Except.pure, hnil]

/-- C4 witness: the theorem applied to the primary key `[id, age, karma]`:
`{id == 5, karma == "k"}` skips `age` and fails with the contiguity error,
while `{id == 5, age == 3, karma == 7}` plans the point range
`only([5, 3, 7])`. -/
theorem C4_contiguity_witness :
    (∃ f p, buildCompositePKRange ["id", "age", "karma"]
        [⟨"id", .eq, .num 5⟩, ⟨"karma", .eq, .str "k"⟩] true
      = .error (.nonContiguous f p)) ∧
    buildCompositePKRange ["id", "age", "karma"]
        [⟨"id", .eq, .num 5⟩, ⟨"age", .eq, .num 3⟩, ⟨"karma", .eq, .num 7⟩] true
      = .ok (some (.only (.arr [.num 5, .num 3, .num 7]))) := by
  constructor
  · exact (C4_contiguity ["id", "age", "karma"]
      [⟨"id", .eq, .num 5⟩, ⟨"karma", .eq, .str "k"⟩]
      (by decide) (by decide) (by decide) (by decide)).1
      ⟨⟨"karma", .eq, .str "k"⟩, by decide, by decide⟩
  · have h := (C4_contiguity ["id", "age", "karma"]
      [⟨"id", .eq, .num 5⟩, ⟨"age", .eq, .num 3⟩, ⟨"karma", .eq, .num 7⟩]
      (by decide) (by decide) (by decide) (by decide)).2 (by decide)
    exact h

/-!  ### C9: codec round-trip  -/

/-- `R` restricted to its non-indexed fields — exactly the `dataObj` that
`Engine.encode` hands to the caller codec. -/
def restrictNI (cfg : StoreCfg) (r : Rec) : Rec :=
  r.filter (fun p => decide (p.1 ∉ indexedFieldsOf cfg))

theorem find?_map_replace_assoc {κ ν : Type} [DecidableEq κ]
    (m : List (κ × ν)) (k : κ) (v : ν)
    (h : (m.find? (fun p => p.1 = k)).isSome) :
    (m.map (fun p => if p.1 = k then (k, v) else p)).find? (fun p => p.1 = k)
      = some (k, v) := by
  induction m with
  | nil => simp at h
  | cons a m ih =>
    by_cases ha : a.1 = k
    · rw [List.map_cons, if_pos ha]
      exact List.find?_cons_of_pos _ (by simp)
    · rw [List.map_cons, if_neg ha,
        List.find?_cons_of_neg _ (by simpa using ha)]
      rw [List.find?_cons_of_neg _ (by simpa using ha)] at h
      exact ih h

/-- Reading back a property just written. -/
theorem getF_setF (r : Rec) (f : String) (v : JSVal) :
    getF (setF r f v) f = some v := by
  unfold getF setF
  by_cases hp : (r.find? (fun p => p.1 = f)).isSome
  · rw [if_pos hp, find?_map_replace_assoc r f v hp]
    rfl
  · rw [if_neg hp]
    have hn : r.find? (fun p => p.1 = f) = none := by
      cases hc : r.find? (fun p => p.1 = f) with
      | none => rfl
      | some a => rw [hc] at hp; simp at hp
    rw [List.find?_append, hn]
    simp

/-- Assigning a fresh property appends it. -/
theorem setF_fresh (r : Rec) (f : String) (v : JSVal)
    (h : f ∉ r.map Prod.fst) : setF r f v = r ++ [(f, v)] := by
  unfold setF
  have hn : (r.find? (fun p => p.1 = f)).isSome = false := by
    cases hc : r.find? (fun p => p.1 = f) with
    | none => rfl
    | some a =>
      have ha := List.find?_some hc
      have ham := List.mem_of_find?_eq_some hc
      simp only [decide_eq_true_eq] at ha
      exact absurd (ha ▸ List.mem_map_of_mem Prod.fst ham) h
  rw [hn]
  simp

/-- A batch of assignments with pairwise-distinct names, all fresh for the
target object, appends the batch. -/
theorem foldl_setF_fresh (B : List (String × JSVal)) :
    ∀ (r : Rec), (B.map Prod.fst).Nodup →
      (∀ b ∈ B.map Prod.fst, b ∉ r.map Prod.fst) →
      B.foldl (fun r p => setF r p.1 p.2) r = r ++ B := by
  induction B with
  | nil => intro r _ _; simp
  | cons p B ih =>
    intro r hnd hfresh
    obtain ⟨f, v⟩ := p
    rw [List.foldl_cons]
    rw [setF_fresh r f v (hfresh f (by simp))]
    rw [ih (r ++ [(f, v)])
      (by rw [List.map_cons] at hnd; exact (List.nodup_cons.1 hnd).2)
      (by
        intro b hb
        rw [List.map_append]
        intro hmem
        rcases List.mem_append.1 hmem with h1 | h1
        · exact hfresh b (by simp [hb]) h1
        · simp only [List.map_cons, List.map_nil, List.mem_singleton] at h1
          rw [List.map_cons] at hnd
          rw [h1] at hb
          exact (List.nodup_cons.1 hnd).1 hb)]
    simp

/-- One assignment cannot break name uniqueness, and adds at most its own
name. -/
theorem setF_keys_nodup (r : Rec) (f : String) (v : JSVal)
    (h : (r.map Prod.fst).Nodup) :
    ((setF r f v).map Prod.fst).Nodup ∧
    ∀ x ∈ (setF r f v).map Prod.fst, x ∈ r.map Prod.fst ∨ x = f := by
  unfold setF
  by_cases hp : (r.find? (fun p => p.1 = f)).isSome
  · rw [if_pos hp]
    have hkeys : (r.map (fun p => if p.1 = f then (f, v) else p)).map Prod.fst
        = r.map Prod.fst := by
      rw [List.map_map]
      apply List.map_congr_left
      intro p _
      by_cases hpf : p.1 = f
      · simp [hpf]
      · simp [hpf]
    rw [hkeys]
    exact ⟨h, fun x hx => Or.inl hx⟩
  · rw [if_neg hp]
    refine ⟨?_, ?_⟩
    · rw [List.map_append, List.nodup_append]
      refine ⟨h, by simp, ?_⟩
      intro a ha
      have hn : r.find? (fun p => p.1 = f) = none := by
        cases hc : r.find? (fun p => p.1 = f) with
        | none => rfl
        | some x => rw [hc] at hp; simp at hp
      rw [List.find?_eq_none] at hn
      rw [List.mem_map] at ha
      obtain ⟨p2, hp2, hpa⟩ := ha
      simp only [List.map_cons, List.map_nil, List.mem_singleton]
      intro haf
      exact hn p2 hp2 (by simp [hpa, haf])
    · intro x hx
      rw [List.map_append] at hx
      rcases List.mem_append.1 hx with h1 | h1
      · exact Or.inl h1
      · simp only [List.map_cons, List.map_nil, List.mem_singleton] at h1
        exact Or.inr h1

theorem foldl_setF_nodup_sub (ps : List (String × JSVal)) :
    ∀ r : Rec, (r.map Prod.fst).Nodup →
      (((ps.foldl (fun r p => setF r p.1 p.2) r).map Prod.fst).Nodup ∧
       ∀ x ∈ (ps.foldl (fun r p => setF r p.1 p.2) r).map Prod.fst,
         x ∈ r.map Prod.fst ∨ x ∈ ps.map Prod.fst) := by
  induction ps with
  | nil => intro r h; exact ⟨h, fun x hx => Or.inl hx⟩
  | cons p ps ih =>
    intro r h
    rw [List.foldl_cons]
    obtain ⟨h1, h2⟩ := setF_keys_nodup r p.1 p.2 h
    obtain ⟨h3, h4⟩ := ih (setF r p.1 p.2) h1
    refine ⟨h3, ?_⟩
    intro x hx
    rcases h4 x hx with h5 | h5
    · rcases h2 x h5 with h6 | h6
      · exact Or.inl h6
      · exact Or.inr (by simp [h6])
    · exact Or.inr (List.mem_cons_of_mem _ h5)

/-- An object literal has pairwise-distinct property names. -/
theorem objLit_keys_nodup (ps : List (String × JSVal)) :
    ((objLit ps).map Prod.fst).Nodup :=
  (foldl_setF_nodup_sub ps [] (by simp)).1

theorem objLit_keys_sub (ps : List (String × JSVal)) :
    ∀ x ∈ (objLit ps).map Prod.fst, x ∈ ps.map Prod.fst := by
  intro x hx
  rcases (foldl_setF_nodup_sub ps [] (by simp)).2 x hx with h | h
  · simp at h
  · exact h

/-- An object literal over pairwise-distinct names is the pair list
itself. -/
theorem objLit_of_nodup (ps : List (String × JSVal))
    (h : (ps.map Prod.fst).Nodup) : objLit ps = ps := by
  unfold objLit
  rw [foldl_setF_fresh ps [] h (by simp)]
  simp

theorem objLit_append (A B : List (String × JSVal)) :
    objLit (A ++ B) = B.foldl (fun r p => setF r p.1 p.2) (objLit A) := by
  unfold objLit
  rw [List.foldl_append]

theorem norm_fields_map : ∀ fs : List (String × JSVal),
    normalizeUint8ArraysFields fs
      = fs.map (fun p => (p.1, normalizeUint8Arrays p.2))
  | [] => rfl
  | (f, v) :: fs => by
    rw [normalizeUint8ArraysFields, norm_fields_map fs]
    rfl

/-- C9, amended: with encoding enabled and a codec whose decode is a left
inverse of its encode (`dec (enc p) = p` as an object), the round trip
restricted to the non-indexed fields yields those fields with each value
passed through `normalizeUint8Arrays`; it is the identity exactly on
normalization-fixed payloads; and `Engine.encode` consults the codec only
on the non-indexed restriction, so indexed fields never pass through the
codec. -/
theorem C9_codec_roundtrip (cfg : StoreCfg) (cenc : Rec → JSVal)
    (cdec : JSVal → JSVal) (R : Rec)
    (henc : cfg.encoding = true)
    (hcodec : ∀ p, cdec (cenc p) = .obj p)
    (hnd : (R.map Prod.fst).Nodup) :
    restrictNI cfg (Engine.decode cfg ⟨cenc, cdec⟩ (Engine.encode cfg ⟨cenc, cdec⟩ R))
        = (restrictNI cfg R).map (fun p => (p.1, normalizeUint8Arrays p.2)) ∧
    ((∀ p ∈ restrictNI cfg R, normalizeUint8Arrays p.2 = p.2) →
      restrictNI cfg (Engine.decode cfg ⟨cenc, cdec⟩ (Engine.encode cfg ⟨cenc, cdec⟩ R))
        = restrictNI cfg R) ∧
    (∀ c c' : Codec, c.enc (restrictNI cfg R) = c'.enc (restrictNI cfg R) →
      Engine.encode cfg c R = Engine.encode cfg c' R) := by
  have hencd : ∀ (c : Codec) (data : Rec), Engine.encode cfg c data
      = setF (data.filter (fun p => decide (p.1 ∈ indexedFieldsOf cfg))) "data"
          (c.enc (data.filter (fun p => decide (p.1 ∉ indexedFieldsOf cfg)))) := by
    intro c data
    unfold Engine.encode
    rw [henc]
    exact rfl
  have hencC : Engine.encode cfg ⟨cenc, cdec⟩ R
      = setF (R.filter (fun p => decide (p.1 ∈ indexedFieldsOf cfg))) "data"
          (cenc (R.filter (fun p => decide (p.1 ∉ indexedFieldsOf cfg)))) :=
    hencd ⟨cenc, cdec⟩ R
  have hdecC : ∀ stored : Rec, Engine.decode cfg ⟨cenc, cdec⟩ stored
      = objLit (objLit ((indexedFieldsOf cfg).map
            (fun f => (f, (getF stored f).getD .undef)))
          ++ spreadFields (normalizeUint8Arrays
            (cdec ((getF stored "data").getD .undef)))) := by
    intro stored
    unfold Engine.decode
    rw [henc]
    exact rfl
  have hmain : restrictNI cfg
      (Engine.decode cfg ⟨cenc, cdec⟩ (Engine.encode cfg ⟨cenc, cdec⟩ R))
      = (restrictNI cfg R).map (fun p => (p.1, normalizeUint8Arrays p.2)) := by
    rw [hencC, hdecC]
    rw [getF_setF]
    simp only [Option.getD_some]
    rw [hcodec]
    have hnormobj : normalizeUint8Arrays
        (.obj (R.filter (fun p => decide (p.1 ∉ indexedFieldsOf cfg))))
        = .obj ((R.filter (fun p => decide (p.1 ∉ indexedFieldsOf cfg))).map
          (fun p => (p.1, normalizeUint8Arrays p.2))) := by
      rw [show normalizeUint8Arrays
          (.obj (R.filter (fun p => decide (p.1 ∉ indexedFieldsOf cfg))))
        = .obj (normalizeUint8ArraysFields
          (R.filter (fun p => decide (p.1 ∉ indexedFieldsOf cfg)))) from rfl]
      rw [norm_fields_map]
    rw [hnormobj]
    rw [show spreadFields (JSVal.obj ((R.filter
        (fun p => decide (p.1 ∉ indexedFieldsOf cfg))).map
        (fun p => (p.1, normalizeUint8Arrays p.2))))
      = (R.filter (fun p => decide (p.1 ∉ indexedFieldsOf cfg))).map
        (fun p => (p.1, normalizeUint8Arrays p.2)) from rfl]
    set I := indexedFieldsOf cfg with hI
    set A := objLit (I.map (fun f =>
      (f, (getF (setF (R.filter (fun p => decide (p.1 ∈ I))) "data"
        (cenc (R.filter (fun p => decide (p.1 ∉ I))))) f).getD .undef))) with hA
    set B := (R.filter (fun p => decide (p.1 ∉ I))).map
      (fun p => (p.1, normalizeUint8Arrays p.2)) with hB
    have hAkeys : ∀ x ∈ A.map Prod.fst, x ∈ I := by
      intro x hx
      have hsub := objLit_keys_sub _ x hx
      rw [List.map_map] at hsub
      simpa using hsub
    have hBkeys : ∀ x ∈ B.map Prod.fst, x ∉ I := by
      intro x hx
      rw [hB, List.map_map] at hx
      rw [List.mem_map] at hx
      obtain ⟨p, hp, hpx⟩ := hx
      have hmem := List.of_mem_filter hp
      simp only [decide_eq_true_eq] at hmem
      have : p.1 = x := hpx
      rw [← this]
      exact hmem
    have hBnodup : (B.map Prod.fst).Nodup := by
      rw [hB, List.map_map]
      have hsub : List.Sublist ((R.filter (fun p => decide (p.1 ∉ I))).map Prod.fst)
          (R.map Prod.fst) :=
        List.Sublist.map Prod.fst (List.filter_sublist R)
      have hfn : (R.filter (fun p => decide (p.1 ∉ I))).map
          (Prod.fst ∘ fun p => (p.1, normalizeUint8Arrays p.2))
          = (R.filter (fun p => decide (p.1 ∉ I))).map Prod.fst := by
        apply List.map_congr_left
        intro p _
        rfl
      rw [hfn]
      exact hnd.sublist hsub
    have hABfresh : ∀ b ∈ B.map Prod.fst, b ∉ A.map Prod.fst := by
      intro b hb hmem
      exact hBkeys b hb (hAkeys b hmem)
    have hobj : objLit (A ++ B) = A ++ B := by
      rw [objLit_append, objLit_of_nodup A (objLit_keys_nodup _),
        foldl_setF_fresh B A hBnodup hABfresh]
    rw [hobj]
    unfold restrictNI
    rw [List.filter_append]
    have hAempty : A.filter (fun p => decide (p.1 ∉ indexedFieldsOf cfg)) = [] := by
      rw [List.filter_eq_nil_iff]
      intro p hp
      simp only [decide_eq_true_eq, Decidable.not_not]
      exact hAkeys p.1 (List.mem_map_of_mem Prod.fst hp)
    have hBfull : B.filter (fun p => decide (p.1 ∉ indexedFieldsOf cfg)) = B := by
      rw [List.filter_eq_self]
      intro p hp
      simp only [decide_eq_true_eq]
      exact hBkeys p.1 (List.mem_map_of_mem Prod.fst hp)
    rw [hAempty, hBfull]
    simp [hB, hI]
  refine ⟨hmain, ?_, ?_⟩
  · intro hfix
    rw [hmain]
    have : ∀ p ∈ restrictNI cfg R,
        (fun p => (p.1, normalizeUint8Arrays p.2)) p = id p := by
      intro p hp
      simp only [id]
      rw [hfix p hp]
    rw [List.map_congr_left this, List.map_id]
  · intro c c' hag
    rw [hencd c R, hencd c' R]
    unfold restrictNI at hag
    rw [hag]

def cfgC9 : StoreCfg := ⟨["id"], [], true⟩

def recC9 : Rec := [("id", .num 1), ("blob", .buf [7])]

/-- C9 counterexample: with a codec whose decode is a left inverse of its
encode (here: encode wraps the payload object, decode is the identity) and
a record carrying a Buffer-like payload value, the round trip is NOT the
identity on the non-indexed fields: decode normalizes the Buffer to a
`Uint8Array`. -/
theorem C9_roundtrip_not_identity_on_buffers :
    idCodec.dec (idCodec.enc (restrictNI cfgC9 recC9))
        = .obj (restrictNI cfgC9 recC9) ∧
    restrictNI cfgC9 (Engine.decode cfgC9 idCodec (Engine.encode cfgC9 idCodec recC9))
        ≠ restrictNI cfgC9 recC9 ∧
    restrictNI cfgC9 (Engine.decode cfgC9 idCodec (Engine.encode cfgC9 idCodec recC9))
        = [("blob", .u8 [7])] ∧
    restrictNI cfgC9 recC9 = [("blob", .buf [7])] := by
  exact ⟨rfl, by decide, by decide, by decide⟩

def recC9b : Rec := [("id", .num 1), ("x", .num 2)]

/-- C9 witness: on a normalization-fixed payload the amended round trip is
the identity on the non-indexed fields. -/
theorem C9_roundtrip_witness :
    restrictNI cfgC9 (Engine.decode cfgC9 ⟨fun r => .obj r, fun w => w⟩
        (Engine.encode cfgC9 ⟨fun r => .obj r, fun w => w⟩ recC9b))
      = restrictNI cfgC9 recC9b := by
  have h := (C9_codec_roundtrip cfgC9 (fun r => .obj r) (fun w => w) recC9b
    rfl (fun p => rfl) (by decide)).2.1
  exact h (by decide)

/-!  ### C5 (amended): injectivity on NUL-free string components  -/

/-- A word followed by a separator determines the split: if neither prefix
contains the separator, equal concatenations have equal prefixes and equal
tails. -/
theorem sep_split (sep : Char) (a : List Char) :
    ∀ (b c d : List Char), sep ∉ a → sep ∉ b →
      a ++ sep :: c = b ++ sep :: d → a = b ∧ c = d := by
  induction a with
  | nil =>
    intro b c d _ hb h
    cases b with
    | nil => simpa using h
    | cons y b =>
      simp only [List.nil_append, List.cons_append, List.cons.injEq] at h
      exact absurd (by rw [h.1]; exact List.mem_cons_self y b) hb
  | cons x a ih =>
    intro b c d ha hb h
    cases b with
    | nil =>
      simp only [List.cons_append, List.nil_append, List.cons.injEq] at h
      exact absurd (by rw [← h.1]; exact List.mem_cons_self x a) ha
    | cons y b =>
      simp only [List.cons_append, List.cons.injEq] at h
      obtain ⟨hxy, h2⟩ := h
      have ha' : sep ∉ a := fun hm => ha (List.mem_cons_of_mem x hm)
      have hb' : sep ∉ b := fun hm => hb (List.mem_cons_of_mem y hm)
      obtain ⟨h3, h4⟩ := ih b c d ha' hb' h2
      exact ⟨by rw [hxy, h3], h4⟩

theorem nul_data : ("\x00" : String).data = ['\x00'] := rfl

/-- The NUL-join of nonempty lists of NUL-free strings is injective. -/
theorem joinStr_inj (xs : List String) :
    ∀ ys : List String, xs ≠ [] → ys ≠ [] →
      (∀ s ∈ xs, ('\x00' : Char) ∉ s.data) →
      (∀ s ∈ ys, ('\x00' : Char) ∉ s.data) →
      jsJoin (xs.map .str) "\x00" = jsJoin (ys.map .str) "\x00" → xs = ys := by
  induction xs with
  | nil => intro ys h; exact absurd rfl h
  | cons x xs ih =>
    intro ys _ hys hxf hyf h
    cases ys with
    | nil => exact absurd rfl hys
    | cons y ys =>
      cases xs with
      | nil =>
        cases ys with
        | nil =>
          have hxy : x = y := by simpa [jsJoin, jsElemString] using h
          rw [hxy]
        | cons y2 ys =>
          simp only [List.map_cons, List.map_nil, jsJoin, jsElemString] at h
          have hd := congrArg String.data h
          simp only [String.data_append, nul_data] at hd
          have hmem : ('\x00' : Char) ∈ x.data := by
            rw [hd]
            simp
          exact absurd hmem (hxf x (List.mem_cons_self x []))
      | cons x2 xs =>
        cases ys with
        | nil =>
          simp only [List.map_cons, List.map_nil, jsJoin, jsElemString] at h
          have hd := congrArg String.data h
          simp only [String.data_append, nul_data] at hd
          have hmem : ('\x00' : Char) ∈ y.data := by
            rw [← hd]
            simp
          exact absurd hmem (hyf y (List.mem_cons_self y []))
        | cons y2 ys =>
          simp only [List.map_cons, jsJoin, jsElemString] at h
          have hd := congrArg String.data h
          simp only [String.data_append, nul_data] at hd
          rw [List.append_assoc, List.append_assoc] at hd
          have hd' : x.data ++ '\x00' :: (jsJoin (JSVal.str x2 :: xs.map .str) "\x00").data
              = y.data ++ '\x00' :: (jsJoin (JSVal.str y2 :: ys.map .str) "\x00").data := by
            simpa using hd
          obtain ⟨h1, h2⟩ := sep_split '\x00' x.data _ _ _
            (hxf x (List.mem_cons_self x _)) (hyf y (List.mem_cons_self y _)) hd'
          have hxy : x = y := by
            apply String.ext
            exact h1
          have hrest : (x2 :: xs) = (y2 :: ys) := by
            apply ih (y2 :: ys) (by simp) (by simp)
              (fun s hs => hxf s (List.mem_cons_of_mem x hs))
              (fun s hs => hyf s (List.mem_cons_of_mem y hs))
            apply String.ext
            simpa using h2
          rw [hxy, hrest]

/-- C5, amended: `normalizeKey` is injective over composite keys all of
whose components are strings not containing the NUL separator (with at
least one component): distinct such keys serialize differently. -/
theorem C5_normalizeKey_injective_on_nul_free_strings (xs ys : List String)
    (hxs : xs ≠ []) (hys : ys ≠ [])
    (hxf : ∀ s ∈ xs, ('\x00' : Char) ∉ s.data)
    (hyf : ∀ s ∈ ys, ('\x00' : Char) ∉ s.data)
    (h : normalizeKey (.arr (xs.map .str)) = normalizeKey (.arr (ys.map .str))) :
    xs = ys :=
  joinStr_inj xs ys hxs hys hxf hyf (by simpa [normalizeKey] using h)

/-- C5 witness: the amended injectivity applied to a concrete pair of
NUL-free composite string keys. -/
theorem C5_injective_witness : (["a", "b"] : List String) = ["a", "b"] :=
  C5_normalizeKey_injective_on_nul_free_strings ["a", "b"] ["a", "b"]
    (by decide) (by decide) (by decide) (by decide) (by decide)

/-- C7 witness: capacity 2, cache holding keys 7 and 9; after a `get` on 7
and one (`C - 1 = 1`) fresh insertion, key 7 is still present. -/
theorem C7_refresh_witness :
    (JSVal.num 7) ∈ (([((JSVal.num 5 : JSVal), (0 : Nat))]).foldl
        (fun e p => LRUCache.set jsTruthy 2 e p.1 p.2)
        (LRUCache.get [((JSVal.num 7 : JSVal), (0 : Nat)), ((JSVal.num 9 : JSVal), 0)]
          (.num 7)).1).map Prod.fst :=
  C7_get_refreshes_recency 2 [((JSVal.num 7 : JSVal), (0 : Nat)), ((JSVal.num 9 : JSVal), 0)]
    (.num 7) 0 [((JSVal.num 5 : JSVal), 0)]
    (by decide) (by decide) (by decide) (by decide) (by decide) (by decide)

end QDB
